import Mathlib

set_option maxHeartbeats 1000000
set_option linter.unusedSectionVars false
set_option linter.unusedVariables false

/-!
Shallow embedding of the binary min-heap priority queue from
src/priority_queue.h (template class PriorityQueue) and of the heap-order
checker from the test harness (tester::isHeapOrder).

The C++ heap is a std::vector with a meaningless sentinel entry at index 0;
live entries occupy indices 1 .. size(), where size() = heap.size() - 1.
We model the vector as a `List T` (index 0 = sentinel) and every
vector `operator[]` read as `l[i]?`.  In `siftDown` the C++ loop condition
`heap[minChild(i)] < heap[i]` compares an index with itself when the sift
reaches a leaf (minChild returns the position itself); when that position is
the slot freed by pop_back the read is out of bounds in the C++ source.  The
comparison there is of one address against itself, so the loop exits for any
value read; the main embedding therefore treats a failed read in the loop
condition as loop exit, and a separate bounds-checked variant (`siftDownE`,
`removeMinE`, `minE`) reports every out-of-bounds access explicitly.
-/

namespace PriorityQueue

variable {T : Type} [LinearOrder T]

/-- C++ `parent(loc)`: `loc >> 1`. -/
def parent (loc : Nat) : Nat := loc >>> 1

/-- C++ `leftChild(loc)`: `loc << 1`. -/
def leftChild (loc : Nat) : Nat := loc <<< 1

/-- C++ `rightChild(loc)`: `(loc << 1) + 1`. -/
def rightChild (loc : Nat) : Nat := (loc <<< 1) + 1

/-- C++ `size()`: `heap.size() - 1` (the sentinel at index 0 is not counted). -/
def size (heap : List T) : Nat := heap.length - 1

/-- C++ `leftInBounds(loc)`: `leftChild(loc) <= size()`. -/
def leftInBounds (heap : List T) (loc : Nat) : Bool :=
  leftChild loc ≤ size heap

/-- C++ `rightInBounds(loc)`: `rightChild(loc) <= size()`. -/
def rightInBounds (heap : List T) (loc : Nat) : Bool :=
  rightChild loc ≤ size heap

/-- C++ `minChild(pos)`: if both children are in bounds, the one holding the
smaller value under strict `<` (the right child when the values are equal);
if only the left child is in bounds, the left child; otherwise `pos` itself.
The reads `heap[leftChild(pos)]`, `heap[rightChild(pos)]` are guarded in
bounds, so the `none` fallback is dead code. -/
def minChild (heap : List T) (pos : Nat) : Nat :=
  if leftInBounds heap pos && rightInBounds heap pos then
    match heap[leftChild pos]?, heap[rightChild pos]? with
    | some l, some r => if l < r then leftChild pos else rightChild pos
    | _, _ => rightChild pos
  else if leftInBounds heap pos then leftChild pos
  else pos

/-- C++ `swap(a, b)`: `std::swap(heap[a], heap[b])`.  Exchanges the entries at
the two indices; if either index is out of bounds the list is returned
unchanged (the source only ever calls it with in-bounds indices). -/
def swap (heap : List T) (a b : Nat) : List T :=
  match heap[a]?, heap[b]? with
  | some x, some y => (heap.set a y).set b x
  | _, _ => heap

theorem length_swap (heap : List T) (a b : Nat) :
    (swap heap a b).length = heap.length := by
  unfold swap
  split <;> simp

theorem parent_lt {loc : Nat} (h : 1 < loc) : parent loc < loc := by
  unfold parent
  rw [Nat.shiftRight_one]
  exact Nat.div_lt_self (by omega) (by omega)

/-- The positions `minChild` can return. -/
theorem minChild_cases (heap : List T) (pos : Nat) :
    minChild heap pos = pos ∨ minChild heap pos = leftChild pos ∨
      minChild heap pos = rightChild pos := by
  unfold minChild
  split
  · split
    · split
      · exact Or.inr (Or.inl rfl)
      · exact Or.inr (Or.inr rfl)
    · exact Or.inr (Or.inr rfl)
  · split
    · exact Or.inr (Or.inl rfl)
    · exact Or.inl rfl

theorem leftChild_eq (pos : Nat) : leftChild pos = 2 * pos := by
  unfold leftChild
  rw [Nat.shiftLeft_eq]
  ring

theorem rightChild_eq (pos : Nat) : rightChild pos = 2 * pos + 1 := by
  unfold rightChild
  rw [Nat.shiftLeft_eq]
  ring

theorem parent_eq (loc : Nat) : parent loc = loc / 2 := by
  unfold parent
  exact Nat.shiftRight_one loc

theorem minChild_gt (heap : List T) (pos : Nat)
    (h : minChild heap pos ≠ pos) : pos < minChild heap pos := by
  rcases minChild_cases heap pos with h1 | h1 | h1
  · exact absurd h1 h
  · rw [h1, leftChild_eq] at h ⊢
    omega
  · rw [h1, rightChild_eq] at h ⊢
    omega

theorem lt_length_of_getElem? {l : List T} {i : Nat} {x : T}
    (h : l[i]? = some x) : i < l.length := by
  by_contra hc
  push_neg at hc
  rw [List.getElem?_eq_none hc] at h
  exact Option.noConfusion h

/-- Loop condition of the C++ sift-down in `removeMin`:
`heap[(swaper = minChild(i))] < heap[i]` (`swaper` stands for
`minChild heap i`).  A failed read (only possible as the out-of-bounds
self-comparison `heap[i] < heap[i]` at a leaf, see the file comment) makes
the condition false. -/
def sdCond (heap : List T) (i : Nat) : Bool :=
  match heap[minChild heap i]?, heap[i]? with
  | some a, some b => decide (a < b)
  | _, _ => false

theorem sdCond_spec {heap : List T} {i : Nat} (h : sdCond heap i = true) :
    i < minChild heap i ∧ i < heap.length := by
  unfold sdCond at h
  split at h
  · rename_i a b hA hB
    have hne : minChild heap i ≠ i := by
      intro hcontra
      rw [hcontra, hB] at hA
      injection hA with hA
      rw [hA] at h
      simp at h
    exact ⟨minChild_gt heap i hne, lt_length_of_getElem? hB⟩
  · exact absurd h (by simp)

/-- C++ sift-down loop of `removeMin`:
`while(heap[(swaper = minChild(i))] < heap[i]) { swap(i, swaper); i = swaper; }`. -/
def siftDown (heap : List T) (i : Nat) : List T :=
  if h : sdCond heap i then
    siftDown (swap heap i (minChild heap i)) (minChild heap i)
  else heap
termination_by heap.length - i
decreasing_by
  obtain ⟨h1, h2⟩ := sdCond_spec h
  rw [length_swap]
  omega

/-- C++ `removeMin()`: save `heap[1]`, write `heap.back()` into `heap[1]`,
`pop_back`, then sift down from the root; returns the saved entry.  The two
initial reads fail (return `none`) exactly when the heap is empty, the case
the source leaves as undefined behavior. -/
def removeMin (heap : List T) : Option (T × List T) :=
  match heap[1]?, heap.getLast? with
  | some save, some back =>
    some (save, siftDown ((heap.set 1 back).dropLast) 1)
  | _, _ => none

/-- C++ sift-up loop of `insert`:
`while(entryNo > 01 && val < heap[parent(entryNo)]) { swap(entryNo, parent(entryNo)); entryNo = parent(entryNo); }`.
The code compares the inserted value `val` (which the swaps keep at position
`entryNo`) against the parent entry; the parent read is guarded in bounds by
`entryNo > 1`, so the `none` fallback is dead code on every call the source
makes. -/
def siftUp (heap : List T) (val : T) (entryNo : Nat) : List T :=
  if h : entryNo > 1 then
    match heap[parent entryNo]? with
    | some p =>
      if val < p then siftUp (swap heap entryNo (parent entryNo)) val (parent entryNo)
      else heap
    | none => heap
  else heap
termination_by entryNo
decreasing_by
  exact parent_lt h

/-- C++ `insert(val)`: `heap.push_back(val)`, then sift the new entry up from
`entryNo = size()` (the freshly appended position). -/
def insert (heap : List T) (val : T) : List T :=
  siftUp (heap ++ [val]) val (size (heap ++ [val]))

/-- C++ `min()`: `return heap[01];`.  The read fails (returns `none`) exactly
when the heap is empty, the case the source leaves as undefined behavior. -/
def min (heap : List T) : Option T := heap[1]?

/-- Comparison `heap[a] < heap[b]` as performed by the test harness
`tester::isHeapOrder`; all its reads are guarded in bounds, so the fallback
is dead code. -/
def ltAt (heap : List T) (a b : Nat) : Bool :=
  match heap[a]?, heap[b]? with
  | some x, some y => decide (x < y)
  | _, _ => false

/-- Test harness `tester<T>::isHeapOrder` (src/unnamed/part_000): for every
logical position `i` from 1 to `size()`, accumulate with `&=`:
if `parent(i) > 0` then `heap[parent(i)] < heap[i]`; if `leftInBounds(i)`
then `heap[i] < heap[leftChild(i)]`; if `rightInBounds(i)` then
`heap[i] < heap[rightChild(i)]`. -/
def isHeapOrder (heap : List T) : Bool :=
  (List.range' 1 (size heap)).all fun i =>
    (if parent i > 0 then ltAt heap (parent i) i else true)
    && (if leftInBounds heap i then ltAt heap i (leftChild i) else true)
    && (if rightInBounds heap i then ltAt heap i (rightChild i) else true)

/-- Failure kinds for the bounds-checked embedding.  `emptyCollection` is the
error the specification prescribes for `peekMin`/`removeMin` on an empty
structure; the source never raises it.  `oobRead idx len` records a vector
`operator[]` read at index `idx` with current vector length `len ≤ idx`,
which is undefined behavior in the C++ source. -/
inductive Error where
  | emptyCollection : Error
  | oobRead (idx len : Nat) : Error
deriving DecidableEq, Repr

/-- Bounds-checked vector read: `heap[i]` with an explicit out-of-bounds
error. -/
def readE (heap : List T) (i : Nat) : Except Error T :=
  match heap[i]? with
  | some x => Except.ok x
  | none => Except.error (Error.oobRead i heap.length)

/-- Bounds-checked C++ `min()`: the single read `heap[01]`. -/
def minE (heap : List T) : Except Error T := readE heap 1

/-- Bounds-checked sift-down loop of `removeMin`: every read of the loop
condition `heap[minChild(i)] < heap[i]` is checked, so the out-of-bounds
self-comparison at the slot freed by `pop_back` surfaces as an `oobRead`
error instead of exiting the loop. -/
def siftDownE (heap : List T) (i : Nat) : Except Error (List T) :=
  match hA : heap[minChild heap i]?, hB : heap[i]? with
  | some a, some b =>
    if h : a < b then siftDownE (swap heap i (minChild heap i)) (minChild heap i)
    else Except.ok heap
  | none, _ => Except.error (Error.oobRead (minChild heap i) heap.length)
  | some _, none => Except.error (Error.oobRead i heap.length)
termination_by heap.length - i
decreasing_by
  have hne : minChild heap i ≠ i := by
    intro hcontra
    rw [hcontra, hB] at hA
    injection hA with hA
    rw [hA] at h
    exact lt_irrefl a h
  have h1 : i < minChild heap i := minChild_gt heap i hne
  have h2 : i < heap.length := lt_length_of_getElem? hB
  rw [length_swap]
  omega

/-- Bounds-checked C++ `removeMin()`: the initial read `heap[1]` is checked,
then the last entry is moved into the root, the vector shrinks by one, and
the checked sift-down runs.  (`heap.back()` cannot fail here: the vector
always holds at least the sentinel whenever `heap[1]` is readable.) -/
def removeMinE (heap : List T) : Except Error (T × List T) :=
  match heap[1]?, heap.getLast? with
  | some save, some back =>
    (siftDownE ((heap.set 1 back).dropLast) 1).map fun h2 => (save, h2)
  | _, _ => Except.error (Error.oobRead 1 heap.length)

/-- A public mutation call of the priority queue: `insert(v)` or
`removeMin()`. -/
inductive Op (T : Type) where
  | ins (v : T) : Op T
  | rem : Op T
deriving DecidableEq, Repr

/-- Run a sequence of public mutation calls starting from a given vector
state.  A `rem` on a state where `removeMin` has no defined result (the
empty heap) yields `none`, so a `some` result certifies that every
`removeMin` in the sequence was invoked on a non-empty heap. -/
def execOps : List (Op T) → List T → Option (List T)
  | [], heap => some heap
  | Op.ins v :: ops, heap => execOps ops (insert heap v)
  | Op.rem :: ops, heap =>
    match removeMin heap with
    | some (_, heap2) => execOps ops heap2
    | none => none

/-- Call `removeMin` `n` times, collecting the returned entries in order;
`none` if some call has no defined result. -/
def drain : Nat → List T → Option (List T)
  | 0, _ => some []
  | n + 1, heap =>
    match removeMin heap with
    | some (x, heap2) => (drain n heap2).map fun out => x :: out
    | none => none

/-- Live entries of the heap: positions 1 .. size (everything but the
sentinel). -/
def live (heap : List T) : List T := heap.drop 1

/-- Live entries as a multiset. -/
def liveM (heap : List T) : Multiset T := (live heap : Multiset T)

/-- Heap-order property over the full live range, exactly as the spec states
it: no stored entry is strictly less than the entry at its parent position
(positions are 1-based; position `i ≥ 2` has parent `i / 2`). -/
def HeapOrd (heap : List T) : Prop :=
  ∀ i x y, 2 ≤ i → heap[i]? = some x → heap[i / 2]? = some y → ¬ x < y

/-- Invariant of every reachable heap state: the sentinel sits at index 0 and
the heap-order property holds.  The constructor produces the one-entry vector
holding only the default-constructed sentinel `s`, and `insert`/`removeMin`
are the only mutations, so the reachable states are exactly the `some`
results of `execOps` runs started at `[s]`. -/
def Inv (s : T) (heap : List T) : Prop := heap[0]? = some s ∧ HeapOrd heap

/-- Number of `insert` calls in a call sequence. -/
def insCount : List (Op T) → Nat
  | [] => 0
  | Op.ins _ :: ops => insCount ops + 1
  | Op.rem :: ops => insCount ops

/-- Number of `removeMin` calls in a call sequence. -/
def remCount : List (Op T) → Nat
  | [] => 0
  | Op.ins _ :: ops => remCount ops
  | Op.rem :: ops => remCount ops + 1

/-- Values passed to the `insert` calls of a call sequence, in order. -/
def insValues : List (Op T) → List T
  | [] => []
  | Op.ins v :: ops => v :: insValues ops
  | Op.rem :: ops => insValues ops

/-! Definitions modelled on the specification text (§4.1), used to state the
refinement claims about the `removeMin` and `insert` algorithms.  They follow
the spec's sentences; a `getD _ default` lookup stands for the spec's "the
element at position p", and the guards keep every such lookup in bounds
whenever it influences the result. -/

/-- Exchange of the elements at two positions, as the spec describes a
swap. -/
def specSwap [Inhabited T] (heap : List T) (a b : Nat) : List T :=
  (heap.set a (heap.getD b default)).set b (heap.getD a default)

/-- Spec §4.1 (`removeMin`), the minimum child of a position: if both
children (`2*pos` and `2*pos+1`) are in bounds, whichever of the two holds
the smaller value under strict `<`, the tie between equal values being
resolved deterministically (toward the right child, the choice the source
makes and the spec permits); if only the left child is in bounds, the left
child; if neither child is in bounds, the position itself. -/
def specMinChild [Inhabited T] (heap : List T) (pos : Nat) : Nat :=
  if 2 * pos + 1 ≤ size heap then
    if heap.getD (2 * pos + 1) default ≤ heap.getD (2 * pos) default then
      2 * pos + 1
    else 2 * pos
  else if 2 * pos ≤ size heap then 2 * pos
  else pos

theorem length_specSwap [Inhabited T] (heap : List T) (a b : Nat) :
    (specSwap heap a b).length = heap.length := by
  simp [specSwap]

theorem specMinChild_spec [Inhabited T] {heap : List T} {pos : Nat}
    (h : specMinChild heap pos ≠ pos) :
    pos < specMinChild heap pos ∧ specMinChild heap pos < heap.length := by
  unfold specMinChild at h ⊢
  unfold size at h ⊢
  split at h
  · rename_i hg
    split at h
    · simp only [hg, if_pos]
      split
      · omega
      · omega
    · rename_i hcmp
      simp only [hg, if_pos]
      rw [if_neg hcmp]
      omega
  · rename_i hg
    split at h
    · rename_i hg2
      rw [if_neg hg, if_pos hg2]
      omega
    · exact absurd rfl h

/-- Spec §4.1 (`removeMin`), sift-down: while the element at the
minimum-child position is strictly less than the element at the current
position, swap the two and continue from the minimum-child position;
otherwise stop.  (When the minimum child is the position itself — the
terminal case — the compared elements coincide and the loop stops.) -/
def specSiftDown [Inhabited T] (heap : List T) (pos : Nat) : List T :=
  if h : heap.getD (specMinChild heap pos) default < heap.getD pos default then
    specSiftDown (specSwap heap pos (specMinChild heap pos))
      (specMinChild heap pos)
  else heap
termination_by heap.length - pos
decreasing_by
  have hne : specMinChild heap pos ≠ pos := by
    intro hcontra
    rw [hcontra] at h
    exact lt_irrefl _ h
  obtain ⟨h1, h2⟩ := specMinChild_spec hne
  rw [length_specSwap]
  omega

/-- Spec §4.1, `removeMin` on a heap with `size ≥ 1`: save the root element
as the return value; move the last element of the array into the root
position; shrink the array by one (dropping the vacated last slot); sift
down from the root; return the saved element.  (For size 0 the spec
prescribes an `EmptyCollection` failure instead; that part of the spec is
settled separately against the bounds-checked embedding.) -/
def spec_removeMin [Inhabited T] (heap : List T) : Option (T × List T) :=
  if 1 ≤ size heap then
    some (heap.getD 1 default,
      specSiftDown ((heap.set 1 (heap.getD (heap.length - 1) default)).dropLast) 1)
  else none

/-- Spec §4.1 (`insert`), sift-up: starting from the position of the newly
appended element, while the element is not at the root and is strictly less
than the element at its parent position, swap the two and continue from the
parent's former position; stop when the element reaches the root or is no
longer strictly less than its parent (so equal elements trigger no
movement). -/
def specSiftUp [Inhabited T] (heap : List T) (pos : Nat) : List T :=
  if pos ≤ 1 then heap
  else if heap.getD pos default < heap.getD (pos / 2) default then
    specSiftUp (specSwap heap pos (pos / 2)) (pos / 2)
  else heap
termination_by pos
decreasing_by
  rename_i hpos
  omega

/-- Spec §4.1, `insert`: append the value at the next free position at the
end of the array, then sift it up from there. -/
def spec_insert [Inhabited T] (heap : List T) (val : T) : List T :=
  specSiftUp (heap ++ [val]) ((heap ++ [val]).length - 1)

/-! Permutation and frame lemmas: the rebalancing loops only ever exchange
entries, so they permute the vector, preserve its length, and (as all swap
indices are ≥ 1) never touch the sentinel slot at index 0. -/

theorem perm_cons_set : ∀ (l : List T) (i : Nat) (x y : T),
    l[i]? = some y → (y :: l.set i x).Perm (x :: l)
  | [], i, x, y, h => by simp at h
  | a :: t, 0, x, y, h => by
    have hy : a = y := by simpa using h
    subst hy
    exact List.Perm.swap x a t
  | a :: t, i + 1, x, y, h => by
    have ih := perm_cons_set t i x y (by simpa using h)
    show (y :: a :: t.set i x).Perm (x :: a :: t)
    exact (List.Perm.swap a y _).trans ((ih.cons a).trans (List.Perm.swap x a t))

theorem swap_perm (heap : List T) (a b : Nat) : (swap heap a b).Perm heap := by
  unfold swap
  split
  · rename_i x y hA hB
    have hb : b < heap.length := lt_length_of_getElem? hB
    have h1 : (heap.set a y)[b]? = some y := by
      rcases eq_or_ne a b with rfl | hne
      · exact List.getElem?_set_self hb
      · rw [List.getElem?_set_ne hne]
        exact hB
    have h2 := perm_cons_set (heap.set a y) b x y h1
    have h3 := perm_cons_set heap a y x hA
    exact (List.perm_cons y).mp (h2.trans h3)
  · exact List.Perm.refl heap

theorem swap_getElem?_other (heap : List T) {a b c : Nat} (h1 : c ≠ a)
    (h2 : c ≠ b) : (swap heap a b)[c]? = heap[c]? := by
  unfold swap
  split
  · rw [List.getElem?_set_ne (Ne.symm h2), List.getElem?_set_ne (Ne.symm h1)]
  · rfl

theorem siftUp_perm (heap : List T) (val : T) (entryNo : Nat) :
    (siftUp heap val entryNo).Perm heap := by
  induction heap, val, entryNo using siftUp.induct with
  | case1 heap val entryNo hn p hp hlt ih =>
    rw [siftUp, dif_pos hn, hp]
    simp only [if_pos hlt]
    exact ih.trans (swap_perm heap entryNo (parent entryNo))
  | case2 heap val entryNo hn p hp hlt =>
    rw [siftUp, dif_pos hn, hp]
    simp only [if_neg hlt]
    exact List.Perm.refl heap
  | case3 heap val entryNo hn hp =>
    rw [siftUp, dif_pos hn, hp]
  | case4 heap val entryNo hn =>
    rw [siftUp, dif_neg hn]

theorem siftDown_perm (heap : List T) (i : Nat) :
    (siftDown heap i).Perm heap := by
  induction heap, i using siftDown.induct with
  | case1 heap i hc ih =>
    rw [siftDown, dif_pos hc]
    exact ih.trans (swap_perm heap i (minChild heap i))
  | case2 heap i hc =>
    rw [siftDown, dif_neg hc]

theorem siftUp_length (heap : List T) (val : T) (entryNo : Nat) :
    (siftUp heap val entryNo).length = heap.length :=
  (siftUp_perm heap val entryNo).length_eq

theorem siftDown_length (heap : List T) (i : Nat) :
    (siftDown heap i).length = heap.length :=
  (siftDown_perm heap i).length_eq

theorem insert_perm (heap : List T) (val : T) :
    (insert heap val).Perm (heap ++ [val]) :=
  siftUp_perm (heap ++ [val]) val (size (heap ++ [val]))

theorem insert_length (heap : List T) (val : T) :
    (insert heap val).length = heap.length + 1 := by
  rw [(insert_perm heap val).length_eq]
  simp

theorem siftUp_getElem?_zero (heap : List T) (val : T) (entryNo : Nat) :
    (siftUp heap val entryNo)[0]? = heap[0]? := by
  induction heap, val, entryNo using siftUp.induct with
  | case1 heap val entryNo hn p hp hlt ih =>
    rw [siftUp, dif_pos hn, hp]
    simp only [if_pos hlt]
    rw [ih, swap_getElem?_other]
    · omega
    · rw [parent_eq]
      omega
  | case2 heap val entryNo hn p hp hlt =>
    rw [siftUp, dif_pos hn, hp]
    simp only [if_neg hlt]
  | case3 heap val entryNo hn hp =>
    rw [siftUp, dif_pos hn, hp]
  | case4 heap val entryNo hn =>
    rw [siftUp, dif_neg hn]

theorem siftDown_getElem?_zero (heap : List T) (i : Nat) (hi : 1 ≤ i) :
    (siftDown heap i)[0]? = heap[0]? := by
  induction heap, i using siftDown.induct with
  | case1 heap i hc ih =>
    have hlt := (sdCond_spec hc).1
    rw [siftDown, dif_pos hc]
    rw [ih (by omega), swap_getElem?_other]
    · omega
    · omega
  | case2 heap i hc =>
    rw [siftDown, dif_neg hc]

theorem insert_getElem?_zero (heap : List T) (val : T) (h : heap ≠ []) :
    (insert heap val)[0]? = heap[0]? := by
  unfold insert
  rw [siftUp_getElem?_zero]
  rw [List.getElem?_append]
  simp only [if_pos (by simpa using List.length_pos.mpr h)]

theorem swap_getElem?_fst {heap : List T} {a b : Nat} {x y : T}
    (hA : heap[a]? = some x) (hB : heap[b]? = some y) (hne : a ≠ b) :
    (swap heap a b)[a]? = some y := by
  unfold swap
  rw [hA, hB]
  rw [List.getElem?_set_ne (Ne.symm hne),
    List.getElem?_set_self (lt_length_of_getElem? hA)]

theorem swap_getElem?_snd {heap : List T} {a b : Nat} {x y : T}
    (hA : heap[a]? = some x) (hB : heap[b]? = some y) (hne : a ≠ b) :
    (swap heap a b)[b]? = some x := by
  unfold swap
  rw [hA, hB]
  rw [List.getElem?_set_self]
  rw [List.length_set]
  exact lt_length_of_getElem? hB

theorem leftInBounds_iff (heap : List T) (i : Nat) :
    leftInBounds heap i = true ↔ 2 * i ≤ heap.length - 1 := by
  simp [leftInBounds, leftChild_eq, size]

theorem rightInBounds_iff (heap : List T) (i : Nat) :
    rightInBounds heap i = true ↔ 2 * i + 1 ≤ heap.length - 1 := by
  simp [rightInBounds, rightChild_eq, size]

theorem sdCond_true_elim {heap : List T} {i : Nat} (h : sdCond heap i = true) :
    ∃ a b, heap[minChild heap i]? = some a ∧ heap[i]? = some b ∧ a < b := by
  unfold sdCond at h
  split at h
  · rename_i a b hA hB
    exact ⟨a, b, hA, hB, by simpa using h⟩
  · exact absurd h (by simp)

theorem sdCond_false_elim {heap : List T} {i : Nat} {a b : T}
    (h : ¬ sdCond heap i = true) (hA : heap[minChild heap i]? = some a)
    (hB : heap[i]? = some b) : ¬ a < b := by
  unfold sdCond at h
  rw [hA, hB] at h
  simpa using h

/-- When position `j` is an in-bounds child of `i`, the entry at
`minChild heap i` exists and is `≤` the entry at `j`. -/
theorem minChild_min {heap : List T} {i j : Nat} {x : T} (hj : j / 2 = i)
    (hj2 : 2 ≤ j) (hx : heap[j]? = some x) :
    ∃ a, heap[minChild heap i]? = some a ∧ a ≤ x := by
  have hjlen : j < heap.length := lt_length_of_getElem? hx
  have hcases : j = 2 * i ∨ j = 2 * i + 1 := by omega
  have hlb : leftInBounds heap i = true := by
    rw [leftInBounds_iff]
    omega
  have hllt : 2 * i < heap.length := by omega
  have hl : heap[2 * i]? = some heap[2 * i] := List.getElem?_eq_getElem hllt
  unfold minChild
  rw [hlb]
  by_cases hrb : rightInBounds heap i = true
  · have hrlt : 2 * i + 1 < heap.length := by
      rw [rightInBounds_iff] at hrb
      omega
    have hr : heap[2 * i + 1]? = some heap[2 * i + 1] :=
      List.getElem?_eq_getElem hrlt
    rw [hrb]
    simp only [Bool.and_self, if_true, leftChild_eq, rightChild_eq, hl, hr]
    by_cases hlr : heap[2 * i] < heap[2 * i + 1]
    · rw [if_pos hlr, hl]
      refine ⟨heap[2 * i], rfl, ?_⟩
      rcases hcases with rfl | rfl
      · rw [hl] at hx
        injection hx with hx
        rw [hx]
      · rw [hr] at hx
        injection hx with hx
        rw [← hx]
        exact hlr.le
    · rw [if_neg hlr, hr]
      refine ⟨heap[2 * i + 1], rfl, ?_⟩
      rcases hcases with rfl | rfl
      · rw [hl] at hx
        injection hx with hx
        rw [← hx]
        exact not_lt.mp hlr
      · rw [hr] at hx
        injection hx with hx
        rw [hx]
  · have hj' : j = 2 * i := by
      rcases hcases with rfl | rfl
      · rfl
      · exact absurd ((rightInBounds_iff heap i).mpr (by omega)) hrb
    rw [Bool.eq_false_iff.mpr hrb]
    simp only [Bool.and_false, if_false, hlb, if_true, leftChild_eq]
    subst hj'
    exact ⟨x, hx, le_refl x⟩

/-- Invariant preservation through the sift-up loop: if the inserted value
sits at `entryNo`, heap order holds at every position other than `entryNo`,
and the parent of `entryNo` is already `≤` both children of `entryNo`, then
the loop restores heap order everywhere. -/
theorem siftUp_heapOrd : ∀ (heap : List T) (val : T) (entryNo : Nat),
    heap[entryNo]? = some val → 1 ≤ entryNo →
    (∀ i x y, 2 ≤ i → i ≠ entryNo → heap[i]? = some x →
      heap[i / 2]? = some y → y ≤ x) →
    (∀ c x g, 2 ≤ entryNo → c / 2 = entryNo → heap[c]? = some x →
      heap[entryNo / 2]? = some g → g ≤ x) →
    HeapOrd (siftUp heap val entryNo) := by
  intro heap val entryNo
  induction heap, val, entryNo using siftUp.induct with
  | case1 heap val entryNo hn p hp hlt ih =>
    intro hv h1 hord hgp
    rw [siftUp, dif_pos hn, hp]
    simp only [if_pos hlt]
    rw [parent_eq] at hp ih ⊢
    have hEl : entryNo < heap.length := lt_length_of_getElem? hv
    have hpelt : entryNo / 2 < entryNo := by omega
    have hne : entryNo ≠ entryNo / 2 := by omega
    have hA1 : (swap heap entryNo (entryNo / 2))[entryNo]? = some p :=
      swap_getElem?_fst hv hp hne
    have hA2 : (swap heap entryNo (entryNo / 2))[entryNo / 2]? = some val :=
      swap_getElem?_snd hv hp hne
    have hother : ∀ c, c ≠ entryNo → c ≠ entryNo / 2 →
        (swap heap entryNo (entryNo / 2))[c]? = heap[c]? := by
      intro c hc1 hc2
      exact swap_getElem?_other heap hc1 hc2
    apply ih hA2 (by omega)
    · -- heap order away from the new position entryNo / 2
      intro i x y hi2 hipe hxA hyA
      by_cases hie : i = entryNo
      · subst hie
        rw [hA1] at hxA
        injection hxA with hxA
        rw [hA2] at hyA
        injection hyA with hyA
        rw [← hxA, ← hyA]
        exact hlt.le
      · by_cases hi2e : i / 2 = entryNo
        · -- i is a child of the old position entryNo
          have hine : i ≠ entryNo / 2 := by omega
          rw [hother i hie hine] at hxA
          rw [hi2e, hA1] at hyA
          injection hyA with hyA
          rw [← hyA]
          exact hgp i x p (by omega) hi2e hxA hp
        · by_cases hi2pe : i / 2 = entryNo / 2
          · -- i is a child of entryNo / 2 other than entryNo
            have hine : i ≠ entryNo / 2 := by omega
            rw [hother i hie hine] at hxA
            rw [hi2pe, hA2] at hyA
            injection hyA with hyA
            rw [← hyA]
            have hple : p ≤ x := by
              apply hord i x p hi2 hie hxA
              rw [hi2pe]
              exact hp
            exact le_trans hlt.le hple
          · -- neither end of the pair was touched by the swap
            have hine : i ≠ entryNo / 2 := hipe
            rw [hother i hie hine] at hxA
            rw [hother (i / 2) hi2e hi2pe] at hyA
            exact hord i x y hi2 hie hxA hyA
    · -- grandparent bound for the new position entryNo / 2
      intro c x g hpe2 hc2 hxA hgA
      have hgg : (entryNo / 2) / 2 ≠ entryNo := by omega
      have hgg2 : (entryNo / 2) / 2 ≠ entryNo / 2 := by omega
      rw [hother _ hgg hgg2] at hgA
      have hgp2 : g ≤ p := by
        apply hord (entryNo / 2) p g (by omega) (by omega) hp hgA
      by_cases hce : c = entryNo
      · subst hce
        rw [hA1] at hxA
        injection hxA with hxA
        rw [← hxA]
        exact hgp2
      · have hcne : c ≠ entryNo / 2 := by omega
        rw [hother c hce hcne] at hxA
        have hpx : p ≤ x := by
          apply hord c x p (by omega) hce hxA
          rw [hc2]
          exact hp
        exact le_trans hgp2 hpx
  | case2 heap val entryNo hn p hp hlt =>
    intro hv h1 hord hgp
    rw [siftUp, dif_pos hn, hp]
    simp only [if_neg hlt]
    rw [parent_eq] at hp
    intro i x y hi2 hx hy
    by_cases hie : i = entryNo
    · subst hie
      rw [hv] at hx
      injection hx with hx
      rw [hp] at hy
      injection hy with hy
      rw [← hx, ← hy]
      exact hlt
    · exact not_lt.mpr (hord i x y hi2 hie hx hy)
  | case3 heap val entryNo hn hp =>
    intro hv h1 hord hgp
    exfalso
    have hEl : entryNo < heap.length := lt_length_of_getElem? hv
    have hplt : parent entryNo < heap.length := by
      rw [parent_eq]
      omega
    rw [List.getElem?_eq_getElem hplt] at hp
    exact Option.noConfusion hp
  | case4 heap val entryNo hn =>
    intro hv h1 hord hgp
    rw [siftUp, dif_neg hn]
    intro i x y hi2 hx hy
    exact not_lt.mpr (hord i x y hi2 (by omega) hx hy)

/-- `insert` preserves the heap-order invariant. -/
theorem insert_heapOrd (heap : List T) (v : T) (hlen : 1 ≤ heap.length)
    (h : HeapOrd heap) : HeapOrd (insert heap v) := by
  unfold insert
  have hsz : size (heap ++ [v]) = heap.length := by
    simp [size]
  rw [hsz]
  apply siftUp_heapOrd (heap ++ [v]) v heap.length
    (List.getElem?_concat_length heap v) hlen
  · intro i x y hi2 hine hx hy
    have hilen : i < (heap ++ [v]).length := lt_length_of_getElem? hx
    have hival : i < heap.length := by
      simp at hilen
      omega
    rw [List.getElem?_append, if_pos hival] at hx
    rw [List.getElem?_append, if_pos (by omega)] at hy
    exact not_lt.mp (h i x y hi2 hx hy)
  · intro c x g he2 hc2 hx hg
    exfalso
    have hclen : c < (heap ++ [v]).length := lt_length_of_getElem? hx
    simp at hclen
    omega

/-- Invariant preservation through the sift-down loop: if heap order holds at
every position whose parent is not `i`, and the parent of `i` is already `≤`
both children of `i`, then the loop restores heap order everywhere. -/
theorem siftDown_heapOrd : ∀ (heap : List T) (i : Nat),
    1 ≤ i →
    (∀ j x y, 2 ≤ j → j / 2 ≠ i → heap[j]? = some x →
      heap[j / 2]? = some y → y ≤ x) →
    (∀ c x g, 2 ≤ i → c / 2 = i → heap[c]? = some x →
      heap[i / 2]? = some g → g ≤ x) →
    HeapOrd (siftDown heap i) := by
  intro heap i
  induction heap, i using siftDown.induct with
  | case1 heap i hc ih =>
    intro h1 hord hgp
    rw [siftDown, dif_pos hc]
    obtain ⟨a, b, hA, hB, hab⟩ := sdCond_true_elim hc
    have hmne : minChild heap i ≠ i := by
      intro hcontra
      rw [hcontra, hB] at hA
      injection hA with hA
      rw [hA] at hab
      exact lt_irrefl a hab
    have hmgt : i < minChild heap i := minChild_gt heap i hmne
    have hm2 : minChild heap i / 2 = i := by
      rcases minChild_cases heap i with h | h | h
      · exact absurd h hmne
      · rw [h, leftChild_eq]
        omega
      · rw [h, rightChild_eq]
        omega
    have hS1 : (swap heap i (minChild heap i))[i]? = some a :=
      swap_getElem?_fst hB hA (by omega)
    have hS2 : (swap heap i (minChild heap i))[minChild heap i]? = some b :=
      swap_getElem?_snd hB hA (by omega)
    have hother : ∀ c, c ≠ i → c ≠ minChild heap i →
        (swap heap i (minChild heap i))[c]? = heap[c]? := by
      intro c hc1 hc2
      exact swap_getElem?_other heap hc1 hc2
    apply ih (by omega)
    · -- heap order away from the children of the new position
      intro j x y hj2 hjm hxA hyA
      by_cases hji : j = i
      · subst hji
        rw [hS1] at hxA
        injection hxA with hxA
        have hj2i : j / 2 ≠ j := by omega
        have hj2m : j / 2 ≠ minChild heap j := by omega
        rw [hother _ hj2i hj2m] at hyA
        rw [← hxA]
        exact hgp (minChild heap j) a y (by omega) hm2 hA hyA
      · by_cases hjm2 : j / 2 = i
        · by_cases hjm' : j = minChild heap i
          · subst hjm'
            rw [hS2] at hxA
            injection hxA with hxA
            rw [hjm2, hS1] at hyA
            injection hyA with hyA
            rw [← hxA, ← hyA]
            exact hab.le
          · -- j is the other child of i
            rw [hother j hji hjm'] at hxA
            rw [hjm2, hS1] at hyA
            injection hyA with hyA
            obtain ⟨a2, hma2, ha2x⟩ := minChild_min hjm2 hj2 hxA
            rw [hA] at hma2
            injection hma2 with hma2
            rw [← hyA, hma2]
            exact ha2x
        · -- neither end of the pair was touched by the swap
          have hjm'' : j ≠ minChild heap i := by
            intro hcontra
            rw [hcontra] at hjm2
            exact hjm2 hm2
          rw [hother j hji hjm''] at hxA
          rw [hother (j / 2) hjm2 hjm] at hyA
          exact hord j x y hj2 hjm2 hxA hyA
    · -- grandparent bound for the new position
      intro c x g hm2' hcm hxA hgA
      rw [hm2, hS1] at hgA
      injection hgA with hgA
      have hci : c ≠ i := by omega
      have hcm' : c ≠ minChild heap i := by omega
      rw [hother c hci hcm'] at hxA
      have hax : a ≤ x := by
        apply hord c x a (by omega) (by omega) hxA
        rw [hcm]
        exact hA
      rw [← hgA]
      exact hax
  | case2 heap i hc =>
    intro h1 hord hgp
    rw [siftDown, dif_neg hc]
    intro j x y hj2 hx hy
    by_cases hji : j / 2 = i
    · obtain ⟨a, hma, hax⟩ := minChild_min hji hj2 hx
      have hy' : heap[i]? = some y := by
        rw [← hji]
        exact hy
      have hnab : ¬ a < y := sdCond_false_elim hc hma hy'
      exact not_lt.mpr (le_trans (not_lt.mp hnab) hax)
    · exact not_lt.mpr (hord j x y hj2 hji hx hy)

theorem removeMin_elim {heap : List T} {x : T} {h2 : List T}
    (h : removeMin heap = some (x, h2)) :
    heap[1]? = some x ∧ ∃ back, heap.getLast? = some back ∧
      h2 = siftDown ((heap.set 1 back).dropLast) 1 := by
  unfold removeMin at h
  split at h
  · rename_i save back hA hB
    rw [Option.some.injEq, Prod.mk.injEq] at h
    obtain ⟨hx, hh⟩ := h
    subst hx
    subst hh
    exact ⟨hA, back, hB, rfl⟩
  · exact Option.noConfusion h

theorem removeMin_isSome {heap : List T} (h : 2 ≤ heap.length) :
    ∃ x h2, removeMin heap = some (x, h2) := by
  unfold removeMin
  rw [List.getElem?_eq_getElem (show 1 < heap.length by omega)]
  rw [List.getLast?_eq_getElem?,
    List.getElem?_eq_getElem (show heap.length - 1 < heap.length by omega)]
  exact ⟨_, _, rfl⟩

theorem removeMin_length {heap : List T} {x : T} {h2 : List T}
    (h : removeMin heap = some (x, h2)) : h2.length + 1 = heap.length := by
  obtain ⟨hA, back, hB, hh⟩ := removeMin_elim h
  have hlen : 2 ≤ heap.length := lt_length_of_getElem? hA
  rw [hh, siftDown_length, List.length_dropLast, List.length_set]
  omega

theorem removeMin_getElem?_zero {heap : List T} {x : T} {h2 : List T}
    (h : removeMin heap = some (x, h2)) : h2[0]? = heap[0]? := by
  obtain ⟨hA, back, hB, hh⟩ := removeMin_elim h
  have hlen : 2 ≤ heap.length := lt_length_of_getElem? hA
  rw [hh, siftDown_getElem?_zero _ _ (le_refl 1), List.getElem?_dropLast,
    if_pos (by rw [List.length_set]; omega), List.getElem?_set_ne (by omega)]

/-- `removeMin` preserves the heap-order invariant. -/
theorem removeMin_heapOrd {heap : List T} {x : T} {h2 : List T}
    (hord : HeapOrd heap) (h : removeMin heap = some (x, h2)) :
    HeapOrd h2 := by
  obtain ⟨hA, back, hB, hh⟩ := removeMin_elim h
  have hlen : 2 ≤ heap.length := lt_length_of_getElem? hA
  rw [hh]
  apply siftDown_heapOrd _ 1 (le_refl 1)
  · intro j xx yy hj2 hjne hx hy
    have hj1 : j ≠ 1 := by omega
    have hj21 : j / 2 ≠ 1 := hjne
    have hjlt : j < heap.length - 1 := by
      have := lt_length_of_getElem? hx
      rw [List.length_dropLast, List.length_set] at this
      exact this
    rw [List.getElem?_dropLast, if_pos (by rw [List.length_set]; omega),
      List.getElem?_set_ne (Ne.symm hj1)] at hx
    rw [List.getElem?_dropLast, if_pos (by rw [List.length_set]; omega),
      List.getElem?_set_ne (Ne.symm hj21)] at hy
    exact not_lt.mp (hord j xx yy hj2 hx hy)
  · intro c xx g hc2 hcc hx hg
    omega

/-- In a heap-ordered vector the root entry is `≤` every live entry. -/
theorem heapOrd_root_min {heap : List T} (hord : HeapOrd heap) :
    ∀ i x r, 1 ≤ i → heap[i]? = some x → heap[1]? = some r → r ≤ x := by
  intro i
  induction i using Nat.strong_induction_on with
  | _ i ih =>
    intro x r hi hx hr
    rcases Nat.lt_or_ge i 2 with hi2 | hi2
    · have : i = 1 := by omega
      subst this
      rw [hx] at hr
      injection hr with hr
      rw [hr]
    · have hplt : i / 2 < i := by omega
      have hilen : i < heap.length := lt_length_of_getElem? hx
      have hp : heap[i / 2]? = some heap[i / 2] :=
        List.getElem?_eq_getElem (by omega)
      have h1 : r ≤ heap[i / 2] := ih (i / 2) hplt _ r (by omega) hp hr
      exact le_trans h1 (not_lt.mp (hord i x _ hi2 hx hp))

/-- The live multiset only depends on the live entries: two vectors that are
permutations of each other and share the sentinel entry at index 0 have the
same live multiset. -/
theorem eq_cons_of_getElem?_zero {l : List T} {s : T}
    (h : l[0]? = some s) : ∃ t, l = s :: t := by
  cases l with
  | nil => simp at h
  | cons a t =>
    have ha : a = s := by simpa using h
    exact ⟨t, by rw [ha]⟩

theorem liveM_eq_of_perm {l l2 : List T} {s : T} (hp : l.Perm l2)
    (h1 : l[0]? = some s) (h2 : l2[0]? = some s) : liveM l = liveM l2 := by
  obtain ⟨t, rfl⟩ := eq_cons_of_getElem?_zero h1
  obtain ⟨t2, rfl⟩ := eq_cons_of_getElem?_zero h2
  show (t : Multiset T) = (t2 : Multiset T)
  have hcoe := Multiset.coe_eq_coe.mpr hp
  rw [← Multiset.cons_coe, ← Multiset.cons_coe] at hcoe
  exact (Multiset.cons_inj_right s).mp hcoe

theorem liveM_insert {heap : List T} (v s : T) (h0 : heap[0]? = some s) :
    liveM (insert heap v) = v ::ₘ liveM heap := by
  have hne : heap ≠ [] := by
    intro hcontra
    rw [hcontra] at h0
    simp at h0
  have hz : (heap ++ [v])[0]? = some s := by
    rw [List.getElem?_append, if_pos (by simpa using List.length_pos.mpr hne)]
    exact h0
  have he : liveM (insert heap v) = liveM (heap ++ [v]) :=
    liveM_eq_of_perm (insert_perm heap v)
      (by rw [insert_getElem?_zero heap v hne]; exact h0) hz
  rw [he]
  obtain ⟨t, rfl⟩ := eq_cons_of_getElem?_zero h0
  show ((t ++ [v] : List T) : Multiset T) = v ::ₘ (t : Multiset T)
  rw [Multiset.cons_coe]
  exact Multiset.coe_eq_coe.mpr (List.perm_append_singleton v t)

/-- Moving the last entry over the root and dropping the vacated slot deletes
exactly one occurrence of the old root from the multiset of entries. -/
theorem popMove_multiset : ∀ (t : List T) (back x : T),
    t.getLast? = some back → t[0]? = some x →
    (t : Multiset T) = x ::ₘ ((t.set 0 back).dropLast : Multiset T)
  | [], back, x, hB, hx => by simp at hx
  | [c], back, x, hB, hx => by
    have hc : c = x := by simpa using hx
    subst hc
    simp
  | c :: d :: t3, back, x, hB, hx => by
    have hc : c = x := by simpa using hx
    subst hc
    rw [List.getLast?_cons_cons] at hB
    have hne : d :: t3 ≠ [] := by simp
    have hlast : (d :: t3).getLast hne = back := by
      have hgl := List.getLast?_eq_getLast (d :: t3) hne
      rw [hgl] at hB
      exact (Option.some.injEq _ _).mp hB
    show ((c :: d :: t3 : List T) : Multiset T) =
      c ::ₘ (((back :: d :: t3).dropLast : List T) : Multiset T)
    rw [List.dropLast_cons_of_ne_nil hne]
    rw [Multiset.cons_coe, Multiset.coe_eq_coe]
    apply List.Perm.cons
    have hsplit : (d :: t3).dropLast ++ [back] = d :: t3 := by
      rw [← hlast]
      exact List.dropLast_append_getLast hne
    nth_rewrite 1 [← hsplit]
    exact List.perm_append_singleton _ _

theorem liveM_removeMin {heap : List T} {x s : T} {h2 : List T}
    (h0 : heap[0]? = some s) (h : removeMin heap = some (x, h2)) :
    liveM heap = x ::ₘ liveM h2 := by
  obtain ⟨hA, back, hB, hh⟩ := removeMin_elim h
  have hlen : 2 ≤ heap.length := lt_length_of_getElem? hA
  have hz2 : h2[0]? = heap[0]? := removeMin_getElem?_zero h
  obtain ⟨t, rfl⟩ := eq_cons_of_getElem?_zero h0
  have htne : t ≠ [] := by
    intro hcontra
    subst hcontra
    simp at hlen
  have htx : t[0]? = some x := by simpa using hA
  have htB : t.getLast? = some back := by
    cases t with
    | nil => exact absurd rfl htne
    | cons c t2 =>
      cases t2 with
      | nil => simpa using hB
      | cons d t3 =>
        rw [← List.getLast?_cons_cons (a := s)]
        exact hB
  have hset : (s :: t).set 1 back = s :: t.set 0 back := rfl
  have hsetne : t.set 0 back ≠ [] := by
    intro hcontra
    have hl := congrArg List.length hcontra
    rw [List.length_set] at hl
    exact htne (List.length_eq_zero.mp hl)
  have hdrop : ((s :: t).set 1 back).dropLast = s :: (t.set 0 back).dropLast := by
    rw [hset, List.dropLast_cons_of_ne_nil hsetne]
  have hmid : liveM h2 = liveM (s :: (t.set 0 back).dropLast) := by
    apply liveM_eq_of_perm
    · rw [hh, hdrop]
      exact siftDown_perm _ 1
    · rw [hz2]
      exact h0
    · simp
  rw [hmid]
  show ((t : List T) : Multiset T) =
    x ::ₘ (((t.set 0 back).dropLast : List T) : Multiset T)
  exact popMove_multiset t back x htB htx

/-! Reachable states: the constructor produces the one-entry vector holding
only the (default-constructed) sentinel `s`; `insert` and `removeMin` are the
only mutations.  `Inv s heap` is the invariant every reachable state
satisfies. -/

theorem Inv_init (s : T) : Inv s [s] := by
  constructor
  · rfl
  · intro i x y hi hx hy
    rw [List.getElem?_eq_none (by simp; omega)] at hx
    exact Option.noConfusion hx

theorem Inv_length {s : T} {heap : List T} (h : Inv s heap) :
    1 ≤ heap.length :=
  lt_length_of_getElem? h.1

theorem Inv_insert {s : T} {heap : List T} (h : Inv s heap) (v : T) :
    Inv s (insert heap v) := by
  obtain ⟨h0, hord⟩ := h
  have hne : heap ≠ [] := by
    intro hc
    rw [hc] at h0
    simp at h0
  constructor
  · rw [insert_getElem?_zero heap v hne]
    exact h0
  · exact insert_heapOrd heap v (lt_length_of_getElem? h0) hord

theorem Inv_removeMin {s : T} {heap : List T} {x : T} {h2 : List T}
    (h : Inv s heap) (hr : removeMin heap = some (x, h2)) : Inv s h2 := by
  constructor
  · rw [removeMin_getElem?_zero hr]
    exact h.1
  · exact removeMin_heapOrd h.2 hr

theorem execOps_Inv : ∀ (ops : List (Op T)) (h0 hp : List T) (s : T),
    Inv s h0 → execOps ops h0 = some hp → Inv s hp := by
  intro ops
  induction ops with
  | nil =>
    intro h0 hp s hI he
    injection he with he
    rw [← he]
    exact hI
  | cons op ops ih =>
    intro h0 hp s hI he
    cases op with
    | ins v => exact ih _ _ _ (Inv_insert hI v) he
    | rem =>
      unfold execOps at he
      cases hrm : removeMin h0 with
      | none =>
        rw [hrm] at he
        exact Option.noConfusion he
      | some pr =>
        obtain ⟨x, h2⟩ := pr
        rw [hrm] at he
        exact ih _ _ _ (Inv_removeMin hI hrm) he

theorem execOps_length : ∀ (ops : List (Op T)) (h0 hp : List T),
    execOps ops h0 = some hp →
    hp.length + remCount ops = h0.length + insCount ops ∧
      (1 ≤ h0.length → 1 ≤ hp.length) := by
  intro ops
  induction ops with
  | nil =>
    intro h0 hp he
    injection he with he
    rw [← he]
    exact ⟨rfl, fun h => h⟩
  | cons op ops ih =>
    intro h0 hp he
    cases op with
    | ins v =>
      have hrec := ih (insert h0 v) hp he
      rw [insert_length] at hrec
      unfold insCount remCount
      constructor
      · omega
      · intro h
        exact hrec.2 (by omega)
    | rem =>
      unfold execOps at he
      cases hrm : removeMin h0 with
      | none =>
        rw [hrm] at he
        exact Option.noConfusion he
      | some pr =>
        obtain ⟨x, h2⟩ := pr
        rw [hrm] at he
        have hlen := removeMin_length hrm
        have hlen2 : 2 ≤ h0.length :=
          lt_length_of_getElem? (removeMin_elim hrm).1
        have hrec := ih h2 hp he
        unfold insCount remCount
        constructor
        · omega
        · intro h
          exact hrec.2 (by omega)

/-- The live multiset of any state reached by a call sequence is contained in
the inserted values together with the live entries of the start state. -/
theorem execOps_liveM : ∀ (ops : List (Op T)) (h0 hp : List T) (s : T),
    Inv s h0 → execOps ops h0 = some hp →
    ∃ rem, liveM h0 + (insValues ops : Multiset T) = liveM hp + rem := by
  intro ops
  induction ops with
  | nil =>
    intro h0 hp s hI he
    injection he with he
    rw [← he]
    exact ⟨0, by simp [insValues]⟩
  | cons op ops ih =>
    intro h0 hp s hI he
    cases op with
    | ins v =>
      obtain ⟨rem, hrem⟩ := ih _ _ _ (Inv_insert hI v) he
      refine ⟨rem, ?_⟩
      rw [liveM_insert v s hI.1] at hrem
      show liveM h0 + ((v :: insValues ops : List T) : Multiset T) =
        liveM hp + rem
      rw [← Multiset.cons_coe, Multiset.add_cons, ← Multiset.cons_add, hrem]
    | rem =>
      unfold execOps at he
      cases hrm : removeMin h0 with
      | none =>
        rw [hrm] at he
        exact Option.noConfusion he
      | some pr =>
        obtain ⟨x, h2⟩ := pr
        rw [hrm] at he
        obtain ⟨rem, hrem⟩ := ih _ _ _ (Inv_removeMin hI hrm) he
        refine ⟨x ::ₘ rem, ?_⟩
        have hlive := liveM_removeMin hI.1 hrm
        show liveM h0 + insValues ops = liveM hp + (x ::ₘ rem)
        rw [hlive, Multiset.cons_add, hrem, Multiset.add_cons]

theorem Inv_root_le {s : T} {heap : List T} (hI : Inv s heap) {b r : T}
    (hb : b ∈ live heap) (hr : heap[1]? = some r) : r ≤ b := by
  obtain ⟨j, hj⟩ := List.mem_iff_getElem?.mp hb
  unfold live at hj
  rw [List.getElem?_drop] at hj
  exact heapOrd_root_min hI.2 (1 + j) b r (by omega) hj hr

/-- Draining a heap-ordered vector completely produces its live entries in
non-decreasing order. -/
theorem drain_sorted : ∀ (n : Nat) (heap : List T) (s : T),
    Inv s heap → size heap = n →
    ∃ out, drain n heap = some out ∧
      (out : Multiset T) = liveM heap ∧ List.Sorted (· ≤ ·) out := by
  intro n
  induction n with
  | zero =>
    intro heap s hI hsz
    refine ⟨[], rfl, ?_, by simp⟩
    have hlen : heap.length = 1 := by
      have := Inv_length hI
      unfold size at hsz
      omega
    show (([] : List T) : Multiset T) = liveM heap
    unfold liveM live
    rw [List.drop_eq_nil_of_le (by omega)]
  | succ n ih =>
    intro heap s hI hsz
    have hlen : 2 ≤ heap.length := by
      have := Inv_length hI
      unfold size at hsz
      omega
    obtain ⟨x, h2, hrm⟩ := removeMin_isSome hlen
    have hI2 := Inv_removeMin hI hrm
    have hsz2 : size h2 = n := by
      have := removeMin_length hrm
      unfold size at hsz ⊢
      omega
    obtain ⟨out2, hdr, hmul, hsort⟩ := ih h2 s hI2 hsz2
    refine ⟨x :: out2, ?_, ?_, ?_⟩
    · unfold drain
      rw [hrm]
      show Option.map (fun out => x :: out) (drain n h2) = some (x :: out2)
      rw [hdr]
      rfl
    · rw [← Multiset.cons_coe, hmul, ← liveM_removeMin hI.1 hrm]
    · rw [List.sorted_cons]
      refine ⟨?_, hsort⟩
      intro b hb
      have hb2 : b ∈ liveM heap := by
        rw [liveM_removeMin hI.1 hrm, Multiset.mem_cons]
        right
        rw [← hmul]
        exact Multiset.mem_coe.mpr hb
      exact Inv_root_le hI (Multiset.mem_coe.mp hb2) (removeMin_elim hrm).1

theorem foldl_insert_Inv : ∀ (xs : List T) (heap : List T) (s : T),
    Inv s heap →
    Inv s (List.foldl insert heap xs) ∧
      liveM (List.foldl insert heap xs) = liveM heap + (xs : Multiset T) ∧
      (List.foldl insert heap xs).length = heap.length + xs.length := by
  intro xs
  induction xs with
  | nil =>
    intro heap s hI
    exact ⟨hI, by simp, by simp⟩
  | cons v xs ih =>
    intro heap s hI
    obtain ⟨hInv, hmul, hlen⟩ := ih (insert heap v) s (Inv_insert hI v)
    refine ⟨hInv, ?_, ?_⟩
    · rw [List.foldl_cons, hmul, liveM_insert v s hI.1]
      show v ::ₘ liveM heap + ((xs : List T) : Multiset T) =
        liveM heap + ((v :: xs : List T) : Multiset T)
      rw [← Multiset.cons_coe, Multiset.add_cons, Multiset.cons_add]
    · rw [List.foldl_cons, hlen, insert_length, List.length_cons]
      omega

/-- C1 (sorting equivalence): inserting the elements of an arbitrary list
`xs` one by one into a freshly constructed PriorityQueue (the vector `[s]`
holding only the sentinel `s`) and then calling `removeMin` `xs.length`
times succeeds and yields exactly the multiset of `xs` (`out.Perm xs`) in
non-decreasing order (`List.Sorted (· ≤ ·) out`), i.e. the sorted
rearrangement of `xs`. -/
theorem sorting_equivalence (xs : List T) (s : T) :
    ∃ out, drain xs.length (List.foldl insert [s] xs) = some out ∧
      out.Perm xs ∧ List.Sorted (· ≤ ·) out := by
  obtain ⟨hInv, hmul, hlen⟩ := foldl_insert_Inv xs [s] s (Inv_init s)
  have hsz : size (List.foldl insert [s] xs) = xs.length := by
    unfold size
    rw [hlen]
    simp
  obtain ⟨out, hdr, hm, hs⟩ := drain_sorted xs.length _ s hInv hsz
  refine ⟨out, hdr, ?_, hs⟩
  rw [hmul] at hm
  have hnil : liveM ([s] : List T) = 0 := rfl
  rw [hnil, zero_add] at hm
  exact Multiset.coe_eq_coe.mp hm

/-- C2 (invariant preservation): for every sequence of `insert`/`removeMin`
calls run from a freshly constructed queue — a `some` result of `execOps`
certifies that every `removeMin` in the sequence was invoked on a non-empty
heap — the heap-order property holds over the full live range of the
resulting state: no stored element is strictly less than the element at its
parent position. -/
theorem invariant_preservation (s : T) (ops : List (Op T)) (hp : List T)
    (h : execOps ops [s] = some hp) : HeapOrd hp :=
  (execOps_Inv ops [s] hp s (Inv_init s) h).2

theorem invariant_preservation_witness : HeapOrd [(0 : Int), 3, 5] :=
  invariant_preservation 0 [Op.ins 5, Op.ins 3] [0, 3, 5]
    (by simp [execOps, insert, siftUp, swap, size, parent_eq])

/-- C7 (peekMin): on every reachable heap state with `size ≥ 1`, `min`
returns the entry stored at the root position 1, and that entry is a minimum
of the stored (live) elements.  `min` is a function of the state that
returns only a value, so it removes nothing, mutates nothing, and two
consecutive calls with no intervening mutation return the same value with
`size` unchanged. -/
theorem peekMin_correct (s : T) (ops : List (Op T)) (hp : List T)
    (hexec : execOps ops [s] = some hp) (hsz : 1 ≤ size hp) :
    ∃ m, min hp = some m ∧ hp[1]? = some m ∧ m ∈ live hp ∧
      ∀ b ∈ live hp, m ≤ b := by
  have hI := execOps_Inv ops [s] hp s (Inv_init s) hexec
  have hlen2 : 2 ≤ hp.length := by
    have := Inv_length hI
    unfold size at hsz
    omega
  obtain ⟨m, h1⟩ : ∃ m, hp[1]? = some m :=
    ⟨_, List.getElem?_eq_getElem (show 1 < hp.length by omega)⟩
  refine ⟨m, h1, h1, ?_, ?_⟩
  · refine List.mem_iff_getElem?.mpr ⟨0, ?_⟩
    unfold live
    rw [List.getElem?_drop]
    exact h1
  · intro b hb
    exact Inv_root_le hI hb h1

theorem peekMin_correct_witness :
    ∃ m, min [(0 : Int), 5] = some m ∧ ([(0 : Int), 5])[1]? = some m ∧
      m ∈ live [(0 : Int), 5] ∧ ∀ b ∈ live [(0 : Int), 5], m ≤ b :=
  peekMin_correct 0 [Op.ins 5] [0, 5]
    (by simp [execOps, insert, siftUp, swap, size, parent_eq]) (by decide)

/-- C8 (size accounting): after any interleaving of `insert` and `removeMin`
calls run from a freshly constructed queue (each `removeMin` on a non-empty
heap), the number `j` of removals never exceeds the number `k` of inserts
and `size` of the resulting state is exactly `k - j`; the empty sequence
instance gives `size = 0` for a fresh queue. -/
theorem size_accounting (s : T) (ops : List (Op T)) (hp : List T)
    (h : execOps ops [s] = some hp) :
    remCount ops ≤ insCount ops ∧
      size hp = insCount ops - remCount ops := by
  obtain ⟨heq, hpos⟩ := execOps_length ops [s] hp h
  have h1 := hpos (by simp)
  unfold size
  simp only [List.length_cons, List.length_nil] at heq
  omega

theorem size_accounting_witness :
    remCount [Op.ins (5 : Int), Op.ins 3, Op.rem] ≤
      insCount [Op.ins (5 : Int), Op.ins 3, Op.rem] ∧
    size [(0 : Int), 5] =
      insCount [Op.ins (5 : Int), Op.ins 3, Op.rem] -
        remCount [Op.ins (5 : Int), Op.ins 3, Op.rem] :=
  size_accounting 0 [Op.ins 5, Op.ins 3, Op.rem] [0, 5]
    (by simp [execOps, insert, siftUp, swap, size, parent_eq, removeMin,
      siftDown, sdCond, minChild, leftInBounds, rightInBounds, leftChild_eq,
      rightChild_eq])

/-- C10 (frame effects): on any vector state carrying the sentinel `s` at
index 0, `insert v` leaves the sentinel slot unchanged and changes the
stored (live) multiset exactly by adding one occurrence of `v`, and a
succeeding `removeMin` leaves the sentinel slot unchanged and changes the
stored multiset exactly by deleting one occurrence of the value it
returns. -/
theorem frame_effects (s : T) (heap : List T) (v : T)
    (h0 : heap[0]? = some s) :
    ((insert heap v)[0]? = some s ∧
      liveM (insert heap v) = v ::ₘ liveM heap) ∧
    ∀ x h2, removeMin heap = some (x, h2) →
      h2[0]? = some s ∧ liveM heap = x ::ₘ liveM h2 := by
  have hne : heap ≠ [] := by
    intro hc
    rw [hc] at h0
    simp at h0
  refine ⟨⟨?_, liveM_insert v s h0⟩, ?_⟩
  · rw [insert_getElem?_zero heap v hne]
    exact h0
  · intro x h2 hrm
    refine ⟨?_, liveM_removeMin h0 hrm⟩
    rw [removeMin_getElem?_zero hrm]
    exact h0

theorem frame_effects_witness :
    ((insert [(0 : Int), 5] 3)[0]? = some 0 ∧
      liveM (insert [(0 : Int), 5] 3) = 3 ::ₘ liveM [(0 : Int), 5]) ∧
    ∀ x h2, removeMin [(0 : Int), 5] = some (x, h2) →
      h2[0]? = some 0 ∧ liveM [(0 : Int), 5] = x ::ₘ liveM h2 :=
  frame_effects 0 [0, 5] 3 rfl

/-- C3 counterexample: on the freshly constructed heap (`size() = 0`, the
vector holds only the sentinel), both `min` and `removeMin` fail with an
out-of-bounds read of `heap[1]` — not with the EmptyCollection error the
claim asserts.  The C++ source performs these reads unchecked (undefined
behavior); the bounds-checked embedding makes the access observable. -/
theorem emptyCollection_counterexample :
    minE [(0 : Int)] = Except.error (Error.oobRead 1 1) ∧
    removeMinE [(0 : Int)] = Except.error (Error.oobRead 1 1) ∧
    Error.oobRead 1 1 ≠ Error.emptyCollection := by
  refine ⟨rfl, rfl, by decide⟩

/-- C3 (amended): when `size()` is 0 the source raises no EmptyCollection
error (no such check or error kind exists in the code); instead `min` and
`removeMin` both immediately read `heap[1]` of a vector of length 1, an
out-of-bounds access left as undefined behavior, which the bounds-checked
embedding reports as `oobRead 1 1`. -/
theorem empty_access_oob (s : T) :
    minE [s] = Except.error (Error.oobRead 1 1) ∧
    removeMinE [s] = Except.error (Error.oobRead 1 1) :=
  ⟨rfl, rfl⟩

/-- C9: `removeMin` on a heap with `size() = 1` — precondition satisfied,
e.g. the reachable state `[0, 5]` — pops the last element and then evaluates
the sift-down loop condition, reading `heap[1]` while the backing vector has
length 1: an index not strictly below the vector length, i.e. an
out-of-bounds read, which the bounds-checked embedding reports.  The spec
(§4.1) sifts down only when the heap is non-empty, so the claim describes
the intent and the missing guard is a slip in the code. -/
theorem removeMin_oob_read :
    removeMinE [(0 : Int), 5] = Except.error (Error.oobRead 1 1) := by
  show (siftDownE [(0 : Int)] 1).map (fun h2 => ((5 : Int), h2)) =
    Except.error (Error.oobRead 1 1)
  rw [siftDownE]
  rfl

theorem nodup_getElem?_ne {l : List T} (hnd : l.Nodup) {a b : Nat}
    {xa xb : T} (hne : a ≠ b) (ha : l[a]? = some xa) (hb : l[b]? = some xb) :
    xa ≠ xb := by
  have halen := lt_length_of_getElem? ha
  have hblen := lt_length_of_getElem? hb
  have hPa : l[a] = xa := by
    rw [List.getElem?_eq_getElem halen] at ha
    exact Option.some.inj ha
  have hPb : l[b] = xb := by
    rw [List.getElem?_eq_getElem hblen] at hb
    exact Option.some.inj hb
  have hp := List.pairwise_iff_getElem.mp hnd
  rcases Nat.lt_or_ge a b with hab | hab
  · have hres := hp a b halen hblen hab
    rw [hPa, hPb] at hres
    exact hres
  · have hba : b < a := by omega
    have hres := hp b a hblen halen hba
    rw [hPa, hPb] at hres
    exact hres.symm

/-- With pairwise-distinct live entries, the non-strict heap-order invariant
makes every comparison of the §6 inspection interface strict, so the test
harness check passes. -/
theorem isHeapOrder_of_nodup {heap : List T} (hord : HeapOrd heap)
    (hnd : (live heap).Nodup) : isHeapOrder heap = true := by
  have hs : size heap = heap.length - 1 := rfl
  have key : ∀ u v, 1 ≤ u → v / 2 = u → v ≤ size heap →
      ltAt heap u v = true := by
    intro u v hu hv hvs
    have hvlen : v < heap.length := by omega
    have hulen : u < heap.length := by omega
    have hx := List.getElem?_eq_getElem hvlen
    have hy := List.getElem?_eq_getElem hulen
    unfold ltAt
    rw [hx, hy]
    show decide (heap[u] < heap[v]) = true
    rw [decide_eq_true_iff]
    have hle : heap[u] ≤ heap[v] := by
      have hres := hord v heap[v] heap[u] (by omega) hx (by rw [hv]; exact hy)
      exact not_lt.mp hres
    have hneq : heap[u] ≠ heap[v] := by
      have hu' : (live heap)[u - 1]? = some heap[u] := by
        unfold live
        rw [List.getElem?_drop]
        have he : 1 + (u - 1) = u := by omega
        rw [he]
        exact hy
      have hv' : (live heap)[v - 1]? = some heap[v] := by
        unfold live
        rw [List.getElem?_drop]
        have he : 1 + (v - 1) = v := by omega
        rw [he]
        exact hx
      exact nodup_getElem?_ne hnd (by omega) hu' hv'
    exact lt_of_le_of_ne hle hneq
  unfold isHeapOrder
  rw [List.all_eq_true]
  intro i hi
  rw [List.mem_range'] at hi
  obtain ⟨k, hklt, hkeq⟩ := hi
  have hi1 : 1 ≤ i := by omega
  have hi2 : i ≤ size heap := by omega
  rw [parent_eq, leftChild_eq, rightChild_eq]
  rw [Bool.and_eq_true, Bool.and_eq_true]
  refine ⟨⟨?_, ?_⟩, ?_⟩
  · split
    · rename_i hg
      exact key (i / 2) i (by omega) rfl hi2
    · rfl
  · split
    · rename_i hg
      rw [leftInBounds_iff] at hg
      exact key i (2 * i) hi1 (by omega) (by omega)
    · rfl
  · split
    · rename_i hg
      rw [rightInBounds_iff] at hg
      exact key i (2 * i + 1) hi1 (by omega) (by omega)
    · rfl

/-- C4 counterexample: the call sequence `insert(5); insert(5)` (two equal
values) reaches the state `[0, 5, 5]`, on which the §6 inspection interface
check `tester::isHeapOrder` — which demands `element[parent(i)] <
element[i]` and `element[i] < element[child(i)]` strictly — reports false,
so the claim fails as stated for sequences containing duplicate inserts. -/
theorem strict_inspection_counterexample :
    execOps [Op.ins (5 : Int), Op.ins 5] [0] = some [0, 5, 5] ∧
    isHeapOrder [(0 : Int), 5, 5] = false := by
  constructor
  · simp [execOps, insert, siftUp, swap, size, parent_eq]
  · rfl

/-- C4 (amended): for every sequence of `insert`/`removeMin` calls run from
a freshly constructed queue whose inserted values are pairwise distinct
(each `removeMin` on a non-empty heap, certified by the `some` result),
after each call the strict relation checked by the §6 inspection interface
holds at every logical position from 1 to size: strict `<` against the
parent and against both in-bounds children. -/
theorem strict_inspection_of_nodup (s : T) (ops : List (Op T)) (hp : List T)
    (h : execOps ops [s] = some hp) (hnd : (insValues ops).Nodup) :
    isHeapOrder hp = true := by
  have hI := execOps_Inv ops [s] hp s (Inv_init s) h
  obtain ⟨rem, hrem⟩ := execOps_liveM ops [s] hp s (Inv_init s) h
  have h0 : liveM ([s] : List T) = 0 := rfl
  rw [h0, zero_add] at hrem
  have hle : liveM hp ≤ (insValues ops : Multiset T) :=
    Multiset.le_iff_exists_add.mpr ⟨rem, hrem⟩
  have hnd2 : (liveM hp).Nodup :=
    Multiset.nodup_of_le hle (Multiset.coe_nodup.mpr hnd)
  exact isHeapOrder_of_nodup hI.2 (Multiset.coe_nodup.mp hnd2)

theorem strict_inspection_of_nodup_witness :
    isHeapOrder [(0 : Int), 3, 5] = true :=
  strict_inspection_of_nodup 0 [Op.ins 5, Op.ins 3] [0, 3, 5]
    (by simp [execOps, insert, siftUp, swap, size, parent_eq]) (by decide)

/-! Refinement: the source's `minChild`, sift-down, `removeMin` and `insert`
agree with the definitions transcribed from the spec's algorithm
descriptions. -/

theorem getD_of_getElem? [Inhabited T] {l : List T} {i : Nat} {x : T}
    (h : l[i]? = some x) : l.getD i default = x := by
  rw [List.getD_eq_getElem?_getD, h, Option.getD_some]

theorem specSwap_eq_swap [Inhabited T] {heap : List T} {a b : Nat}
    {x y : T} (ha : heap[a]? = some x) (hb : heap[b]? = some y) :
    specSwap heap a b = swap heap a b := by
  unfold specSwap swap
  rw [ha, hb, getD_of_getElem? ha, getD_of_getElem? hb]

theorem minChild_eq_spec [Inhabited T] (heap : List T) (pos : Nat) :
    minChild heap pos = specMinChild heap pos := by
  have hsz : size heap = heap.length - 1 := rfl
  unfold minChild specMinChild
  by_cases hr : 2 * pos + 1 ≤ size heap
  · have hlb : leftInBounds heap pos = true := by
      rw [leftInBounds_iff]
      omega
    have hrb : rightInBounds heap pos = true := by
      rw [rightInBounds_iff]
      omega
    have hcond : (leftInBounds heap pos && rightInBounds heap pos) = true := by
      rw [hlb, hrb]
      rfl
    rw [if_pos hcond, if_pos hr]
    have hL := List.getElem?_eq_getElem (show 2 * pos < heap.length by omega)
    have hR := List.getElem?_eq_getElem (show 2 * pos + 1 < heap.length by omega)
    rw [leftChild_eq, rightChild_eq, hL, hR]
    show (if heap[2 * pos] < heap[2 * pos + 1] then 2 * pos else 2 * pos + 1) = _
    rw [getD_of_getElem? hR, getD_of_getElem? hL]
    by_cases hc : heap[2 * pos] < heap[2 * pos + 1]
    · rw [if_pos hc, if_neg (not_le.mpr hc)]
    · rw [if_neg hc, if_pos (not_lt.mp hc)]
  · have hrb : ¬ rightInBounds heap pos = true := by
      rw [rightInBounds_iff]
      omega
    have hcond : ¬ (leftInBounds heap pos && rightInBounds heap pos) = true := by
      intro hcontra
      rw [Bool.and_eq_true] at hcontra
      exact hrb hcontra.2
    rw [if_neg hcond, if_neg hr]
    by_cases hl : 2 * pos ≤ size heap
    · have hlb : leftInBounds heap pos = true := by
        rw [leftInBounds_iff]
        omega
      rw [if_pos hlb, if_pos hl, leftChild_eq]
    · have hlb : ¬ leftInBounds heap pos = true := by
        rw [leftInBounds_iff]
        omega
      rw [if_neg hlb, if_neg hl]

theorem minChild_of_oob {heap : List T} {i : Nat}
    (h : heap[i]? = none) : minChild heap i = i := by
  have hsz : size heap = heap.length - 1 := rfl
  have hlen : heap.length ≤ i := by
    by_contra hc
    push_neg at hc
    rw [List.getElem?_eq_getElem hc] at h
    exact Option.noConfusion h
  unfold minChild
  have hrb : ¬ rightInBounds heap i = true := by
    rw [rightInBounds_iff]
    omega
  have hcond : ¬ (leftInBounds heap i && rightInBounds heap i) = true := by
    intro hcontra
    rw [Bool.and_eq_true] at hcontra
    exact hrb hcontra.2
  rw [if_neg hcond]
  by_cases hl : leftInBounds heap i = true
  · have hln := (leftInBounds_iff heap i).mp hl
    have hi0 : i = 0 := by omega
    rw [if_pos hl, leftChild_eq, hi0]
  · rw [if_neg hl]

theorem minChild_isSome {heap : List T} {i : Nat} {b : T}
    (hb : heap[i]? = some b) : ∃ a, heap[minChild heap i]? = some a := by
  have hsz : size heap = heap.length - 1 := rfl
  have hlen : i < heap.length := lt_length_of_getElem? hb
  unfold minChild
  by_cases hr : rightInBounds heap i = true
  · have hrn := (rightInBounds_iff heap i).mp hr
    have hlb : leftInBounds heap i = true := by
      rw [leftInBounds_iff]
      omega
    have hcond : (leftInBounds heap i && rightInBounds heap i) = true := by
      rw [hlb, hr]
      rfl
    rw [if_pos hcond]
    have hL := List.getElem?_eq_getElem (show 2 * i < heap.length by omega)
    have hR := List.getElem?_eq_getElem (show 2 * i + 1 < heap.length by omega)
    rw [leftChild_eq, rightChild_eq, hL, hR]
    show ∃ a, heap[if heap[2 * i] < heap[2 * i + 1] then 2 * i else 2 * i + 1]? = some a
    by_cases hc : heap[2 * i] < heap[2 * i + 1]
    · rw [if_pos hc]
      exact ⟨_, hL⟩
    · rw [if_neg hc]
      exact ⟨_, hR⟩
  · have hcond : ¬ (leftInBounds heap i && rightInBounds heap i) = true := by
      intro hcontra
      rw [Bool.and_eq_true] at hcontra
      exact hr hcontra.2
    rw [if_neg hcond]
    by_cases hl : leftInBounds heap i = true
    · have hln := (leftInBounds_iff heap i).mp hl
      rw [if_pos hl, leftChild_eq]
      have hlt : 2 * i < heap.length := by omega
      exact ⟨_, List.getElem?_eq_getElem hlt⟩
    · rw [if_neg hl]
      exact ⟨b, hb⟩

theorem siftDown_eq_spec [Inhabited T] : ∀ (heap : List T) (i : Nat),
    siftDown heap i = specSiftDown heap i := by
  intro heap i
  induction heap, i using siftDown.induct with
  | case1 heap i hc ih =>
    rw [siftDown, dif_pos hc]
    obtain ⟨a, b, hA, hB, hab⟩ := sdCond_true_elim hc
    rw [specSiftDown, dif_pos (by
      rw [← minChild_eq_spec, getD_of_getElem? hA, getD_of_getElem? hB]
      exact hab)]
    rw [← minChild_eq_spec, specSwap_eq_swap hB hA]
    exact ih
  | case2 heap i hc =>
    rw [siftDown, dif_neg hc, specSiftDown]
    rcases hBi : heap[i]? with _ | b
    · have hmi : minChild heap i = i := minChild_of_oob hBi
      rw [dif_neg (by rw [← minChild_eq_spec, hmi]; exact lt_irrefl _)]
    · obtain ⟨a, hA⟩ := minChild_isSome hBi
      have hnab := sdCond_false_elim hc hA hBi
      rw [dif_neg (by
        rw [← minChild_eq_spec, getD_of_getElem? hA, getD_of_getElem? hBi]
        exact hnab)]

/-- C5 (removeMin matches its spec description): the source's `minChild`
agrees at every position with the spec's minimum-child rule (smaller value
under strict `<` when both children are in bounds, ties resolved
deterministically toward the right child, the left child when only it is in
bounds, the position itself otherwise), and `removeMin` agrees with the
spec's algorithm: save the root, move the last array element into the root,
shrink by one, sift down from the root swapping while the entry at the
minimum-child position is strictly less than the entry at the current
position, and return the saved root (defined exactly when `size ≥ 1`). -/
theorem removeMin_matches_spec [Inhabited T] (heap : List T) :
    (∀ pos, minChild heap pos = specMinChild heap pos) ∧
    removeMin heap = spec_removeMin heap := by
  refine ⟨minChild_eq_spec heap, ?_⟩
  unfold removeMin spec_removeMin
  by_cases hlen : 2 ≤ heap.length
  · have h1 := List.getElem?_eq_getElem (show 1 < heap.length by omega)
    have hL : heap.getLast? = some heap[heap.length - 1] := by
      rw [List.getLast?_eq_getElem?]
      exact List.getElem?_eq_getElem (by omega)
    rw [h1, hL]
    rw [if_pos (show 1 ≤ size heap by unfold size; omega)]
    show some (heap[1], siftDown ((heap.set 1 heap[heap.length - 1]).dropLast) 1) = _
    rw [getD_of_getElem? h1,
      getD_of_getElem? (List.getElem?_eq_getElem (show heap.length - 1 < heap.length by omega)),
      siftDown_eq_spec]
  · have h1 : heap[1]? = none := List.getElem?_eq_none (by omega)
    rw [h1]
    rw [if_neg (show ¬ 1 ≤ size heap by unfold size; omega)]

theorem siftUp_eq_spec [Inhabited T] : ∀ (heap : List T) (val : T)
    (entryNo : Nat), heap[entryNo]? = some val →
    siftUp heap val entryNo = specSiftUp heap entryNo := by
  intro heap val entryNo
  induction heap, val, entryNo using siftUp.induct with
  | case1 heap val entryNo hn p hp hlt ih =>
    intro hv
    rw [siftUp, dif_pos hn, hp]
    simp only [if_pos hlt]
    rw [specSiftUp, if_neg (by omega)]
    rw [parent_eq] at hp ih ⊢
    rw [if_pos (by
      rw [getD_of_getElem? hv, getD_of_getElem? hp]
      exact hlt)]
    rw [specSwap_eq_swap hv hp]
    exact ih (swap_getElem?_snd hv hp (by omega))
  | case2 heap val entryNo hn p hp hlt =>
    intro hv
    rw [siftUp, dif_pos hn, hp]
    simp only [if_neg hlt]
    rw [specSiftUp, if_neg (by omega)]
    rw [parent_eq] at hp
    rw [if_neg (by
      rw [getD_of_getElem? hv, getD_of_getElem? hp]
      exact hlt)]
  | case3 heap val entryNo hn hp =>
    intro hv
    exfalso
    have hEl : entryNo < heap.length := lt_length_of_getElem? hv
    have hplt : parent entryNo < heap.length := by
      rw [parent_eq]
      omega
    rw [List.getElem?_eq_getElem hplt] at hp
    exact Option.noConfusion hp
  | case4 heap val entryNo hn =>
    intro hv
    rw [siftUp, dif_neg hn, specSiftUp, if_pos (by omega)]

/-- C6 (insert matches its spec description): `insert` appends the value at
the next free position at the end of the array and then sifts up exactly as
the spec describes — while the element is strictly less than its parent the
two are swapped and the walk continues from the parent's former position,
stopping at the root or when no longer strictly less (so equal elements
trigger no movement). -/
theorem insert_matches_spec [Inhabited T] (heap : List T) (val : T) :
    insert heap val = spec_insert heap val := by
  unfold insert spec_insert
  have hidx : size (heap ++ [val]) = (heap ++ [val]).length - 1 := rfl
  rw [hidx]
  apply siftUp_eq_spec
  have hlen : (heap ++ [val]).length - 1 = heap.length := by simp
  rw [hlen]
  exact List.getElem?_concat_length heap val

end PriorityQueue
